import Mathlib

/-!
Verification of the MinistryQnA retrieval pipeline.

This file gives a shallow embedding, in Lean, of the algorithmic core of the
repository: the sentence-based text chunker (`src/document_processor.py`), the
vector-store write/search/clear operations and their retry wrapper
(`src/azure_vector_store.py`), the deterministic chunk-id construction
(`sansad_client.py`), and the response formatting / irrelevance detection of
the answer generator (`src/llm_client.py`).  Text is modelled as `List Char`
(Python `str`), machine floats as `ℚ`, and the external collaborators
(embedding model, pgvector distance operator, database transport) as explicit
function parameters.  Theorems about these definitions settle the claims of
the specification.
-/

/-! ### Python string primitives

`pySpace` models the ASCII whitespace recognised by Python `str.strip()`;
`stripL` models `str.strip()`; `lowerChar` models `str.lower()` on ASCII;
`containsSeg` models the Python substring test `p in s`. -/

def pySpace (c : Char) : Bool :=
  c.toNat = 32 || c.toNat = 9 || c.toNat = 10 || c.toNat = 13 ||
    c.toNat = 11 || c.toNat = 12

def stripL (l : List Char) : List Char :=
  ((l.dropWhile pySpace).reverse.dropWhile pySpace).reverse

def lowerChar (c : Char) : Char :=
  if 65 ≤ c.toNat ∧ c.toNat ≤ 90 then Char.ofNat (c.toNat + 32) else c

def lowerL (l : List Char) : List Char := l.map lowerChar

def beginsWith : List Char → List Char → Bool
  | [], _ => true
  | _ :: _, [] => false
  | p :: ps, s :: ss => p == s && beginsWith ps ss

def containsSeg (p : List Char) : List Char → Bool
  | [] => beginsWith p []
  | c :: s => beginsWith p (c :: s) || containsSeg p s

/-! ### Sentence splitting

`splitOnTerm` models the `re.split` of `chunk_text` on the pattern [.!?]+ up to empty parts: it splits
on every single terminal character where the regex splits on runs, but the
extra parts produced inside a run are empty and `pySentences` drops empty
parts after stripping, exactly as the loop in `chunk_text` does
(`sentence.strip()` / `if not sentence: continue`). -/

def isSentTerm (c : Char) : Bool := c == '.' || c == '!' || c == '?'

def splitOnTerm : List Char → List (List Char)
  | [] => [[]]
  | c :: rest =>
    match splitOnTerm rest with
    | [] => [[]]
    | s :: ss => if isSentTerm c then [] :: s :: ss else (c :: s) :: ss

def pySentences (text : List Char) : List (List Char) :=
  ((splitOnTerm text).map stripL).filter (fun s => !s.isEmpty)

/-- A string whose first and last characters are not whitespace (the shape of
every output of `stripL`). -/
def noEdgeSpace (p : List Char) : Prop :=
  (∀ c t, p = c :: t → pySpace c = false) ∧ (∀ c t, p.reverse = c :: t → pySpace c = false)

/-! ### DocumentProcessor.chunk_text  (src/document_processor.py lines 56-91)

The loop state is the list of emitted chunks plus the running buffer
`current_chunk`.  `chunkStep` is the body of the `for sentence in sentences`
loop, specialised to the non-empty stripped sentences that survive the
`continue` guard (which is what `pySentences` produces). -/

structure ChunkSt where
  chunks : List (List Char)
  current : List Char
deriving DecidableEq

def chunkStep (chunkSize overlap : Nat) (st : ChunkSt) (s : List Char) : ChunkSt :=
  if st.current.length + s.length > chunkSize then
    if st.current.isEmpty then
      { st with current := s }
    else
      { chunks := st.chunks ++ [stripL st.current],
        current :=
          if overlap > 0 ∧ overlap < st.current.length then
            st.current.drop (st.current.length - overlap) ++ ' ' :: s
          else s }
  else
    { st with current := if st.current.isEmpty then s else st.current ++ ' ' :: s }

def chunk_text (text : List Char) (chunkSize overlap : Nat) : List (List Char) :=
  if text.isEmpty then []
  else
    let st := (pySentences text).foldl (chunkStep chunkSize overlap) ⟨[], []⟩
    if (stripL st.current).isEmpty then st.chunks else st.chunks ++ [stripL st.current]

/-! Instrumented variant of the same loop: alongside each chunk it records the
original sentences that were accumulated into that chunk (the overlap seed
copied from the previous chunk is not a new sentence and is not recorded).
Used to state the no-content-loss property. -/

structure ChunkStS where
  chunks : List (List Char × List (List Char))
  current : List Char
  currentSents : List (List Char)
deriving DecidableEq

def chunkStepS (chunkSize overlap : Nat) (st : ChunkStS) (s : List Char) : ChunkStS :=
  if st.current.length + s.length > chunkSize then
    if st.current.isEmpty then
      { st with current := s, currentSents := st.currentSents ++ [s] }
    else
      { chunks := st.chunks ++ [(stripL st.current, st.currentSents)],
        current :=
          if overlap > 0 ∧ overlap < st.current.length then
            st.current.drop (st.current.length - overlap) ++ ' ' :: s
          else s,
        currentSents := [s] }
  else
    { st with current := if st.current.isEmpty then s else st.current ++ ' ' :: s,
              currentSents := st.currentSents ++ [s] }

def chunk_text_sents (text : List Char) (chunkSize overlap : Nat) :
    List (List Char × List (List Char)) :=
  if text.isEmpty then []
  else
    let st := (pySentences text).foldl (chunkStepS chunkSize overlap) ⟨[], [], []⟩
    if (stripL st.current).isEmpty then st.chunks
    else st.chunks ++ [(stripL st.current, st.currentSents)]

/-! ### Deterministic chunk ids  (sansad_client.py lines 93-120)

`process_pdf_from_bytes` builds one document per chunk with
`id = f"{filename}_chunk_{i}"`.  Only the `(id, text)` projection is modelled;
the metadata payload (source, original_url, chunk_index, total_chunks) is an
uninterpreted record that no claim inspects. -/

def buildDocs (filename : String) : Nat → List (List Char) → List (String × List Char)
  | _, [] => []
  | i, c :: cs => (filename ++ "_chunk_" ++ toString i, c) :: buildDocs filename (i + 1) cs

def process_pdf_documents (filename : String) (cleaned_text : List Char) :
    List (String × List Char) :=
  buildDocs filename 0 (chunk_text cleaned_text 1000 200)

/-! ### Vector store rows and upsert  (src/azure_vector_store.py)

A row of the `documents` table.  Machine floats of the 384-dimensional
embedding are modelled as rationals; the uninterpreted JSON metadata column is not
modelled (no claim inspects it, only the `ministry` key that `add_documents`
may read from it, which is carried on `InputDoc`). -/

structure StoredDoc where
  id : String
  text : List Char
  embedding : List ℚ
  ministry : Option String
deriving DecidableEq

structure InputDoc where
  id : String
  text : List Char
  metaMinistry : Option String
deriving DecidableEq

def pyTruthy : Option String → Bool
  | none => false
  | some s => !s.isEmpty

/-- The row built in the loop body of `batch_operation`: text is stripped,
the embedding is computed from the stripped text (`create_embedding` strips
again, which is idempotent), and the `ministry` column falls back to the
document metadata when the `ministry` argument is falsy
(`ministry or doc.get("metadata", {}).get("ministry")`).  The embedding model
is the external collaborator `embed`. -/
def mkStoredDoc (embed : List Char → List ℚ) (ministry : Option String)
    (d : InputDoc) : StoredDoc :=
  { id := d.id, text := stripL d.text, embedding := embed (stripL d.text),
    ministry := if pyTruthy ministry then ministry else d.metaMinistry }

/-- Models `session.merge(db_doc)`: insert-or-replace by primary key `id`. -/
def mergeDoc (rows : List StoredDoc) (d : StoredDoc) : List StoredDoc :=
  if rows.any (fun r => r.id == d.id) then
    rows.map (fun r => if r.id == d.id then d else r)
  else rows ++ [d]

def mergeStep (embed : List Char → List ℚ) (ministry : Option String)
    (acc : List StoredDoc × Nat) (d : InputDoc) : List StoredDoc × Nat :=
  if (stripL d.text).isEmpty then acc
  else (mergeDoc acc.1 (mkStoredDoc embed ministry d), acc.2 + 1)

/-- The `batch_operation` closure: upserts each non-empty document of one
batch and counts the documents added. -/
def batchOperation (embed : List Char → List ℚ) (ministry : Option String)
    (rows : List StoredDoc) (batch : List InputDoc) : List StoredDoc × Nat :=
  batch.foldl (mergeStep embed ministry) (rows, 0)

/-- The `for i in range(0, len(documents), batch_size)` loop of
`add_documents_batch` with `batch_size = 10`; each batch is committed
independently and the per-batch counts are summed into `total_added`.  The
`fuel` argument only encodes termination structurally (the loop consumes at
least one document per iteration, so `fuel = length` never runs out); it is
fixed to the document count in `addBatches`. -/
def addBatchesFuel (embed : List Char → List ℚ) (ministry : Option String) :
    Nat → List StoredDoc → List InputDoc → List StoredDoc × Nat
  | _, rows, [] => (rows, 0)
  | 0, rows, _ :: _ => (rows, 0)
  | fuel + 1, rows, d :: ds =>
    let r1 := batchOperation embed ministry rows ((d :: ds).take 10)
    let r2 := addBatchesFuel embed ministry fuel r1.1 (ds.drop 9)
    (r2.1, r1.2 + r2.2)

def addBatches (embed : List Char → List ℚ) (ministry : Option String)
    (rows : List StoredDoc) (l : List InputDoc) : List StoredDoc × Nat :=
  addBatchesFuel embed ministry l.length rows l

structure VectorStoreSt where
  documents : List StoredDoc
  indexed_ministries : List String
deriving DecidableEq

/-- Models `self.indexed_ministries.add(ministry)` (Python set insertion). -/
def insertIfAbsent (l : List String) (m : String) : List String :=
  if m ∈ l then l else l ++ [m]

def add_documents_batch (embed : List Char → List ℚ) (st : VectorStoreSt)
    (documents : List InputDoc) (ministry : Option String) : VectorStoreSt × Nat :=
  if documents.isEmpty then (st, 0)
  else
    let r := addBatches embed ministry st.documents documents
    let indexed :=
      match ministry with
      | some m =>
        if !m.isEmpty ∧ 0 < r.2 then insertIfAbsent st.indexed_ministries m
        else st.indexed_ministries
      | none => st.indexed_ministries
    (⟨r.1, indexed⟩, r.2)

def add_documents (embed : List Char → List ℚ) (st : VectorStoreSt)
    (documents : List InputDoc) (ministry : Option String) : VectorStoreSt × Nat :=
  add_documents_batch embed st documents ministry

def is_ministry_indexed (st : VectorStoreSt) (ministry : String) : Bool :=
  st.indexed_ministries.contains ministry

/-- Models `DELETE FROM documents WHERE ministry = :ministry` plus
`self.indexed_ministries.discard(ministry)`. -/
def clear_ministry_documents (st : VectorStoreSt) (ministry : String) : VectorStoreSt :=
  { documents := st.documents.filter (fun r => r.ministry != some ministry),
    indexed_ministries := st.indexed_ministries.erase ministry }

/-- Models `DELETE FROM documents` plus `self.indexed_ministries.clear()`. -/
def clear_all (_st : VectorStoreSt) : VectorStoreSt :=
  { documents := [], indexed_ministries := [] }

/-! ### The retry wrapper `_safe_session_operation`
(src/azure_vector_store.py lines 92-154)

The unit of work is abstracted as `op : Nat → Except String α` giving the
outcome of the operation on each attempt (the three `except` arms of the
source retry on every exception class alike, so a single error outcome
suffices).  The session lifecycle is recorded as an event trace: per Python
semantics, on success the `finally` closes the session after the commit; on a
retryable failure the handler rolls back and closes, sleeps `2 ** attempt`,
and the `finally` triggered by `continue` closes again; on the final attempt
the handler rolls back and closes and the `finally` triggered by `raise`
closes again before the error propagates. -/

inductive SessionEv where
  | opened : SessionEv
  | committed : SessionEv
  | rolledBack : SessionEv
  | closed : SessionEv
  | slept : Nat → SessionEv
deriving DecidableEq

def safe_session_loop {α : Type} (op : Nat → Except String α) :
    Nat → Nat → Option (Except String α) × List SessionEv
  | 0, _ => (none, [])
  | remaining + 1, attempt =>
    match op attempt with
    | .ok a => (some (.ok a), [.opened, .committed, .closed])
    | .error e =>
      if 0 < remaining then
        let r := safe_session_loop op remaining (attempt + 1)
        (r.1, .opened :: .rolledBack :: .closed :: .slept (2 ^ attempt) :: .closed :: r.2)
      else (some (.error e), [.opened, .rolledBack, .closed, .closed])

/-- Models `_safe_session_operation(operation_func, max_retries=3)`.  The loop is
indexed by the number of remaining attempts (`maxRetries - attempt`, positive
inside the loop) together with the current attempt number; `0 < remaining`
after consuming this attempt is exactly the `attempt < max_retries - 1`
retry guard of the source.  Result `none` models the implicit `return None`
when the loop body never runs (`max_retries = 0`); `some (.ok a)` a committed
result; `some (.error e)` the exception propagating after the final
attempt. -/
def safe_session_operation {α : Type} (op : Nat → Except String α)
    (maxRetries : Nat) : Option (Except String α) × List SessionEv :=
  safe_session_loop op maxRetries 0

def countEv (evs : List SessionEv) (e : SessionEv) : Nat := evs.count e

def sleepsOf (evs : List SessionEv) : List Nat :=
  evs.filterMap (fun ev => match ev with | .slept d => some d | _ => none)

/-! ### search_by_text  (src/azure_vector_store.py lines 236-290)

The SQL statement
`SELECT ... WHERE ministry = :ministry ORDER BY embedding <-> :q LIMIT :n`
is modelled as filter, sort ascending by the distance key, truncate.  The
pgvector distance operator `<->` is the external parameter `dist`; the
embedding model is `embed`; `attemptFail` injects the transient failure (if
any) of each attempt of the surrounding `_safe_session_operation`. -/

def relevance_score (distance : ℚ) : ℚ := max 0 (1 - distance)

structure SearchResult where
  id : String
  text : List Char
  ministry : Option String
  distance : ℚ
  relevance_score : ℚ
deriving DecidableEq

def mkSearchResult (dist : List ℚ → List ℚ → ℚ) (qEmb : List ℚ)
    (r : StoredDoc) : SearchResult :=
  { id := r.id, text := r.text, ministry := r.ministry,
    distance := dist r.embedding qEmb,
    relevance_score := relevance_score (dist r.embedding qEmb) }

def byDistance (dist : List ℚ → List ℚ → ℚ) (qEmb : List ℚ) :
    StoredDoc → StoredDoc → Prop :=
  fun a b => dist a.embedding qEmb ≤ dist b.embedding qEmb

instance (dist : List ℚ → List ℚ → ℚ) (qEmb : List ℚ) :
    DecidableRel (byDistance dist qEmb) :=
  fun a b => inferInstanceAs (Decidable (dist a.embedding qEmb ≤ dist b.embedding qEmb))

def search_operation (dist : List ℚ → List ℚ → ℚ) (qEmb : List ℚ)
    (rows : List StoredDoc) (ministry : String) (limit : Nat) : List SearchResult :=
  ((List.insertionSort (byDistance dist qEmb)
      (rows.filter (fun r => r.ministry == some ministry))).take limit).map
    (mkSearchResult dist qEmb)

def search_by_text (dist : List ℚ → List ℚ → ℚ) (embed : List Char → List ℚ)
    (rows : List StoredDoc) (attemptFail : Nat → Option String)
    (query : List Char) (ministry : String) (n_results : Nat) : List SearchResult :=
  if (stripL query).isEmpty then []
  else
    let op : Nat → Except String (List SearchResult) := fun k =>
      match attemptFail k with
      | some e => .error e
      | none => .ok (search_operation dist (embed (stripL query)) rows ministry n_results)
    match (safe_session_operation op 3).1 with
    | some (.ok docs) => docs
    | _ => []

/-! ### LLMClient response formatting  (src/llm_client.py lines 294-356) -/

def irrelevance_indicators : List String :=
  ["unable to answer this question as it is not relevant to the ministry\x27s affairs",
   "not relevant to the ministry\x27s functions",
   "does not fall under the purview of this ministry",
   "outside the scope of this ministry",
   "not within the jurisdiction of this ministry",
   "not relevant to",
   "outside the scope",
   "not related to parliamentary",
   "not within the jurisdiction",
   "unrelated to government",
   "cannot answer this question as it is not relevant"]

def is_irrelevant_response (text : String) : Bool :=
  irrelevance_indicators.any (fun ind => containsSeg ind.data (lowerL text.data))

def pyStrip (s : String) : String := ⟨stripL s.data⟩

structure CtxMetadata where
  date : Option String
  session : Option String
  filename : Option String
  source : Option String
deriving DecidableEq

structure CtxDoc where
  metadata : CtxMetadata
deriving DecidableEq

def canonical_refusal : String :=
  "I apologize, but your question appears to be outside the scope of parliamentary and governmental matters. Please ask questions related to government policies, parliamentary procedures, or ministry functions."

def citationLine (i : Nat) (session date source : String) : String :=
  "[" ++ toString i ++ "] Parliamentary record from Session (" ++ session ++
    "), dated (" ++ date ++ ") (Source: " ++ source ++ ")"

/-- The `for i, doc in enumerate(context_docs[:3], 1)` loop: reads the
metadata fields with their defaults and keeps the citation when any field
differs from the generic defaults. -/
def meaningfulCitations : Nat → List CtxDoc → List String
  | _, [] => []
  | i, d :: ds =>
    let date := (d.metadata.date).getD ("Unknown date")
    let session := (d.metadata.session).getD ("Unknown session")
    let source := (d.metadata.filename).getD ((d.metadata.source).getD ("Unknown source"))
    let rest := meaningfulCitations (i + 1) ds
    if date ≠ "Unknown date" ∨ (session ≠ "Unknown session" ∧ session ≠ "4")
        ∨ (source ≠ "Unknown source" ∧ source ≠ "parliamentary_document") then
      citationLine i session date source :: rest
    else rest

def format_parliamentary_response (text : String) (context_docs : List CtxDoc) : String :=
  let formatted := pyStrip text
  if is_irrelevant_response formatted then canonical_refusal
  else
    if !context_docs.isEmpty ∧ !(is_irrelevant_response formatted) then
      let cits := meaningfulCitations 1 (context_docs.take 3)
      if !cits.isEmpty then
        formatted ++ "\n\n**Sources:**\n" ++ String.intercalate ("\n") cits
      else formatted
    else formatted


/-! ### Auxiliary definitions used by the statements -/

/-- Length of the longest sentence produced for `text` (0 when none). -/
def maxSentenceLen (text : List Char) : Nat :=
  ((pySentences text).map List.length).foldr max 0

/-- Forget the recorded sentences of an instrumented chunker state. -/
def projS (st : ChunkStS) : ChunkSt := ⟨st.chunks.map Prod.fst, st.current⟩

/-- All sentences consumed so far by an instrumented chunker state, in order. -/
def totalSents (st : ChunkStS) : List (List Char) :=
  (st.chunks.map Prod.snd).flatten ++ st.currentSents

/-- The row component of one `mergeStep` (the per-document upsert, ignoring
the added-count component of the accumulator). -/
def rowsOnlyStep (embed : List Char → List ℚ) (ministry : Option String)
    (rows : List StoredDoc) (d : InputDoc) : List StoredDoc :=
  if (stripL d.text).isEmpty then rows else mergeDoc rows (mkStoredDoc embed ministry d)

/-- Invariant of the instrumented chunker state: recorded sentences are
non-empty, stripped, and occur inside the buffer/chunk they are recorded
for. -/
def goodS (st : ChunkStS) : Prop :=
  (st.current = [] → st.currentSents = [])
  ∧ (∀ s ∈ st.currentSents, s ≠ [] ∧ noEdgeSpace s ∧ containsSeg s st.current = true)
  ∧ (∀ p ∈ st.chunks, ∀ s ∈ p.2, containsSeg s p.1 = true)

/-! ## Helper lemmas: substring containment and stripping -/

theorem beginsWith_iff (p : List Char) : ∀ s, beginsWith p s = true ↔ ∃ t, s = p ++ t := by
  induction p with
  | nil => intro s; simp [beginsWith]
  | cons c ps ih =>
    intro s
    cases s with
    | nil => simp [beginsWith]
    | cons d ss =>
      simp only [beginsWith, Bool.and_eq_true, beq_iff_eq, ih, List.cons_append]
      constructor
      · rintro ⟨rfl, t, rfl⟩; exact ⟨t, rfl⟩
      · rintro ⟨t, h⟩
        injection h with h1 h2
        exact ⟨h1.symm, t, h2⟩

theorem containsSeg_iff (p : List Char) : ∀ s, containsSeg p s = true ↔ ∃ a b, s = a ++ p ++ b := by
  intro s
  induction s with
  | nil =>
    simp only [containsSeg, beginsWith_iff]
    constructor
    · rintro ⟨t, h⟩
      exact ⟨[], t, by simpa using h⟩
    · rintro ⟨a, b, h⟩
      refine ⟨b, ?_⟩
      rcases List.append_eq_nil.mp h.symm with ⟨h1, h2⟩
      rcases List.append_eq_nil.mp h1 with ⟨rfl, rfl⟩
      simp [h2]
  | cons c ss ih =>
    simp only [containsSeg, Bool.or_eq_true, beginsWith_iff, ih]
    constructor
    · rintro (⟨t, h⟩ | ⟨a, b, rfl⟩)
      · exact ⟨[], t, by simpa using h⟩
      · exact ⟨c :: a, b, by simp⟩
    · rintro ⟨a, b, h⟩
      cases a with
      | nil => exact Or.inl ⟨b, by simpa using h⟩
      | cons x a =>
        injection h with h1 h2
        exact Or.inr ⟨a, b, h2⟩

theorem containsSeg_of_eq_append (p a b s : List Char) (h : s = a ++ p ++ b) :
    containsSeg p s = true :=
  (containsSeg_iff p s).mpr ⟨a, b, h⟩

theorem containsSeg_refl (p : List Char) : containsSeg p p = true :=
  containsSeg_of_eq_append p [] [] p (by simp)

theorem containsSeg_append_left (p a s : List Char) (h : containsSeg p s = true) :
    containsSeg p (a ++ s) = true := by
  rcases (containsSeg_iff p s).mp h with ⟨x, y, rfl⟩
  exact containsSeg_of_eq_append p (a ++ x) y _ (by simp)

theorem containsSeg_append_right (p s b : List Char) (h : containsSeg p s = true) :
    containsSeg p (s ++ b) = true := by
  rcases (containsSeg_iff p s).mp h with ⟨x, y, rfl⟩
  exact containsSeg_of_eq_append p x (y ++ b) _ (by simp)

theorem eq_nil_of_containsSeg_nil (p : List Char) (h : containsSeg p [] = true) : p = [] := by
  rcases (containsSeg_iff p []).mp h with ⟨a, b, hab⟩
  rcases List.append_eq_nil.mp (List.append_eq_nil.mp hab.symm).1 with ⟨_, h2⟩
  exact h2

theorem containsSeg_reverse (p s : List Char) (h : containsSeg p s = true) :
    containsSeg p.reverse s.reverse = true := by
  rcases (containsSeg_iff p s).mp h with ⟨a, b, rfl⟩
  exact containsSeg_of_eq_append _ b.reverse a.reverse _ (by simp)

theorem containsSeg_dropWhile (p : List Char) (c : Char) (t : List Char)
    (hp : p = c :: t) (hc : pySpace c = false) :
    ∀ s, containsSeg p s = true → containsSeg p (s.dropWhile pySpace) = true := by
  intro s h
  rcases (containsSeg_iff p s).mp h with ⟨a, b, rfl⟩
  clear h
  induction a with
  | nil =>
    subst hp
    simpa [List.dropWhile_cons, hc] using containsSeg_of_eq_append (c :: t) [] b _ (by simp)
  | cons x a ih =>
    by_cases hx : pySpace x
    · simpa [List.dropWhile_cons, hx] using ih
    · rw [List.cons_append, List.cons_append, List.dropWhile_cons, if_neg (by simp [hx])]
      exact containsSeg_of_eq_append p (x :: a) b _ (by simp)

theorem containsSeg_stripL (p s : List Char) (hne : p ≠ []) (hedge : noEdgeSpace p)
    (h : containsSeg p s = true) : containsSeg p (stripL s) = true := by
  rcases p with _ | ⟨c, t⟩
  · exact absurd rfl hne
  have h1 : containsSeg (c :: t) (s.dropWhile pySpace) = true :=
    containsSeg_dropWhile (c :: t) c t rfl (hedge.1 c t rfl) s h
  have h2 : containsSeg (c :: t).reverse (s.dropWhile pySpace).reverse = true :=
    containsSeg_reverse _ _ h1
  rcases hr : (c :: t).reverse with _ | ⟨c', t'⟩
  · simp at hr
  have h3 : containsSeg (c :: t).reverse ((s.dropWhile pySpace).reverse.dropWhile pySpace)
      = true := by
    rw [hr] at h2 ⊢
    exact containsSeg_dropWhile (c' :: t') c' t' rfl (hedge.2 c' t' hr) _ h2
  have h4 := containsSeg_reverse _ _ h3
  simpa [stripL] using h4

theorem dropWhile_head_false (q : Char → Bool) :
    ∀ (l : List Char) c t, l.dropWhile q = c :: t → q c = false := by
  intro l
  induction l with
  | nil => intro c t h; simp [List.dropWhile] at h
  | cons x xs ih =>
    intro c t h
    by_cases hq : q x
    · rw [List.dropWhile_cons, if_pos hq] at h
      exact ih c t h
    · rw [List.dropWhile_cons, if_neg hq] at h
      injection h with h1 _
      subst h1
      simpa using hq

theorem length_dropWhile_le (q : Char → Bool) (l : List Char) :
    (l.dropWhile q).length ≤ l.length := by
  induction l with
  | nil => simp
  | cons c t ih =>
    by_cases hq : q c <;> simp [List.dropWhile_cons, hq] <;> omega

theorem stripL_length_le (l : List Char) : (stripL l).length ≤ l.length := by
  unfold stripL
  calc ((l.dropWhile pySpace).reverse.dropWhile pySpace).reverse.length
      = ((l.dropWhile pySpace).reverse.dropWhile pySpace).length := by simp
    _ ≤ (l.dropWhile pySpace).reverse.length := length_dropWhile_le _ _
    _ = (l.dropWhile pySpace).length := by simp
    _ ≤ l.length := length_dropWhile_le _ _

theorem stripL_prefix_dropWhile (x : List Char) :
    x.dropWhile pySpace =
      stripL x ++ ((x.dropWhile pySpace).reverse.takeWhile pySpace).reverse := by
  have h1 : ((x.dropWhile pySpace).reverse.takeWhile pySpace ++
      (x.dropWhile pySpace).reverse.dropWhile pySpace).reverse =
      (x.dropWhile pySpace).reverse.reverse := by
    rw [List.takeWhile_append_dropWhile]
  rw [List.reverse_append, List.reverse_reverse] at h1
  exact h1.symm

theorem stripL_noEdgeSpace (x : List Char) : noEdgeSpace (stripL x) := by
  constructor
  · intro c t h
    have hx := stripL_prefix_dropWhile x
    rw [h, List.cons_append] at hx
    exact dropWhile_head_false pySpace x c _ hx
  · intro c t h
    have hrev : (stripL x).reverse = (x.dropWhile pySpace).reverse.dropWhile pySpace := by
      simp [stripL]
    rw [hrev] at h
    exact dropWhile_head_false pySpace _ c t h

theorem stripL_ne_nil_of_containsSeg (p s : List Char) (hne : p ≠ []) (hedge : noEdgeSpace p)
    (h : containsSeg p s = true) : stripL s ≠ [] := by
  intro hnil
  have := containsSeg_stripL p s hne hedge h
  rw [hnil] at this
  exact hne (eq_nil_of_containsSeg_nil p this)

/-! ## Helper lemmas: lower-casing -/

theorem pySpace_lowerChar (c : Char) : pySpace (lowerChar c) = pySpace c := by
  unfold lowerChar
  split
  · rename_i hc
    have hv : (Char.ofNat (c.toNat + 32)).toNat = c.toNat + 32 := by
      unfold Char.ofNat
      split
      · simp [Char.toNat, Char.ofNatAux, UInt32.toNat, BitVec.toNat_ofNatLt]
      · rename_i hval
        exact absurd (Or.inl (by omega : c.toNat + 32 < 55296)) hval
    have hA : pySpace (Char.ofNat (c.toNat + 32)) = false := by
      simp [pySpace, hv]; omega
    have hB : pySpace c = false := by
      simp [pySpace]; omega
    rw [hA, hB]
  · rfl

theorem stripL_lowerL (l : List Char) : stripL (lowerL l) = lowerL (stripL l) := by
  have hfun : (fun c => pySpace (lowerChar c)) = pySpace := funext pySpace_lowerChar
  simp only [stripL, lowerL, List.dropWhile_map, Function.comp_def, hfun, ← List.map_reverse]

theorem noEdgeSpace_of_headB (p : List Char)
    (h1 : p.head?.all (fun c => !pySpace c) = true)
    (h2 : p.reverse.head?.all (fun c => !pySpace c) = true) : noEdgeSpace p := by
  constructor
  · intro c t h
    subst h
    simpa using h1
  · intro c t h
    rw [h] at h2
    simpa using h2

/-! ## Claim C3: irrelevance refusal -/

/-- C3.  For every model response text containing the substring
"not relevant to" (matched case-insensitively, as Python
`"not relevant to" in text.lower()`), and for every list of context
documents, `_format_parliamentary_response` returns the canonical refusal
sentence. -/
theorem format_parliamentary_response_refusal (text : String) (context_docs : List CtxDoc)
    (h : containsSeg (("not relevant to").data) (lowerL text.data) = true) :
    format_parliamentary_response text context_docs = canonical_refusal := by
  have hne : (("not relevant to").data) ≠ [] := by decide
  have hedge : noEdgeSpace (("not relevant to").data) :=
    noEdgeSpace_of_headB _ (by decide) (by decide)
  have h2 : containsSeg (("not relevant to").data) (stripL (lowerL text.data)) = true :=
    containsSeg_stripL _ _ hne hedge h
  have h3 : containsSeg (("not relevant to").data) (lowerL (stripL text.data)) = true := by
    rw [← stripL_lowerL]
    exact h2
  have h4 : is_irrelevant_response (pyStrip text) = true := by
    unfold is_irrelevant_response
    apply List.any_eq_true.mpr
    refine ⟨"not relevant to", by simp [irrelevance_indicators], ?_⟩
    exact h3
  simp [format_parliamentary_response, h4]

set_option maxRecDepth 10000 in
/-- Witness for C3 at a concrete mixed-case response and a non-trivial
context list. -/
theorem format_parliamentary_response_refusal_witness :
    format_parliamentary_response
        ("  The question is NOT relevant TO this ministry. Other text follows.")
        [⟨⟨some ("2024-01-01"), some ("5"), some ("f.pdf"), none⟩⟩] = canonical_refusal :=
  format_parliamentary_response_refusal _ _ (by decide)

/-! ## Helper lemmas: the retry loop -/

theorem safe_session_loop_ok {α : Type} (op : Nat → Except String α) :
    ∀ rem att a, (safe_session_loop op rem att).1 = some (Except.ok a) →
      ∃ k, att ≤ k ∧ k < att + rem ∧ op k = Except.ok a := by
  intro rem
  induction rem with
  | zero =>
    intro att a h
    simp [safe_session_loop] at h
  | succ n ih =>
    intro att a h
    rw [safe_session_loop] at h
    cases hop : op att with
    | ok b =>
      rw [hop] at h
      simp at h
      exact ⟨att, le_refl att, by omega, by rw [hop, h]⟩
    | error e =>
      rw [hop] at h
      by_cases hn : 0 < n
      · simp only [if_pos hn] at h
        rcases ih (att + 1) a h with ⟨k, hk1, hk2, hk3⟩
        exact ⟨k, by omega, by omega, hk3⟩
      · simp only [if_neg hn] at h
        simp at h

/-! ## Claim C9: bounded retry with backoff, propagation, session hygiene -/

/-- C9.  `_safe_session_operation` with the default `max_retries = 3`:
(i) at most 3 sessions are ever opened (at most 3 attempts);
(ii) every opened session is closed (on success, retryable failure and fatal
failure alike the count of closes covers the count of opens);
(iii) a returned success is the committed result of one of the at most 3
attempts;
(iv) when every attempt fails, the error of the final attempt propagates to the
caller, the backoff sleeps are exponential starting at 1 time unit
(`2 ** attempt` = 1, 2), and each of the 3 failed attempts rolled its
session back. -/
theorem safe_session_operation_retry_policy {α : Type} (op : Nat → Except String α) :
    countEv (safe_session_operation op 3).2 SessionEv.opened ≤ 3
    ∧ countEv (safe_session_operation op 3).2 SessionEv.opened ≤
        countEv (safe_session_operation op 3).2 SessionEv.closed
    ∧ (∀ a, (safe_session_operation op 3).1 = some (Except.ok a) →
        ∃ k, k < 3 ∧ op k = Except.ok a)
    ∧ (∀ e0 e1 e2, op 0 = Except.error e0 → op 1 = Except.error e1 →
        op 2 = Except.error e2 →
        (safe_session_operation op 3).1 = some (Except.error e2)
        ∧ sleepsOf (safe_session_operation op 3).2 = [1, 2]
        ∧ countEv (safe_session_operation op 3).2 SessionEv.opened = 3
        ∧ countEv (safe_session_operation op 3).2 SessionEv.rolledBack = 3) := by
  refine ⟨?_, ?_, ?_, ?_⟩
  · cases h0 : op 0 with
    | ok a0 => simp [safe_session_operation, safe_session_loop, h0, countEv]
    | error e0 =>
      cases h1 : op 1 with
      | ok a1 => simp [safe_session_operation, safe_session_loop, h0, h1, countEv]
      | error e1 =>
        cases h2 : op 2 with
        | ok a2 => simp [safe_session_operation, safe_session_loop, h0, h1, h2, countEv]
        | error e2 => simp [safe_session_operation, safe_session_loop, h0, h1, h2, countEv]
  · cases h0 : op 0 with
    | ok a0 => simp [safe_session_operation, safe_session_loop, h0, countEv]
    | error e0 =>
      cases h1 : op 1 with
      | ok a1 => simp [safe_session_operation, safe_session_loop, h0, h1, countEv]
      | error e1 =>
        cases h2 : op 2 with
        | ok a2 => simp [safe_session_operation, safe_session_loop, h0, h1, h2, countEv]
        | error e2 => simp [safe_session_operation, safe_session_loop, h0, h1, h2, countEv]
  · intro a ha
    rcases safe_session_loop_ok op 3 0 a ha with ⟨k, _, hk2, hk3⟩
    exact ⟨k, by omega, hk3⟩
  · intro e0 e1 e2 h0 h1 h2
    refine ⟨?_, ?_, ?_, ?_⟩ <;>
      simp [safe_session_operation, safe_session_loop, h0, h1, h2, countEv, sleepsOf]

/-- Witness for C9 with every attempt failing on a database error. -/
theorem safe_session_operation_retry_policy_witness :
    (safe_session_operation (fun _ => (Except.error ("db") : Except String Nat)) 3).1 =
        some (Except.error ("db"))
    ∧ sleepsOf (safe_session_operation (fun _ => (Except.error ("db") : Except String Nat)) 3).2 =
        [1, 2]
    ∧ countEv (safe_session_operation (fun _ => (Except.error ("db") : Except String Nat)) 3).2
        SessionEv.opened = 3 := by
  have h := (safe_session_operation_retry_policy
    (fun _ => (Except.error ("db") : Except String Nat))).2.2.2 ("db") ("db") ("db") rfl rfl rfl
  exact ⟨h.1, h.2.1, h.2.2.1⟩

/-! ## Helper lemmas: search_by_text -/

theorem search_by_text_cases (dist : List ℚ → List ℚ → ℚ) (embed : List Char → List ℚ)
    (rows : List StoredDoc) (attemptFail : Nat → Option String)
    (query : List Char) (ministry : String) (n_results : Nat) :
    search_by_text dist embed rows attemptFail query ministry n_results = []
    ∨ search_by_text dist embed rows attemptFail query ministry n_results =
        search_operation dist (embed (stripL query)) rows ministry n_results := by
  unfold search_by_text
  dsimp only
  split
  · exact Or.inl rfl
  · cases hr : (safe_session_operation (fun k =>
        match attemptFail k with
        | some e => Except.error e
        | none => Except.ok
            (search_operation dist (embed (stripL query)) rows ministry n_results)) 3).1 with
    | none => exact Or.inl rfl
    | some v =>
      cases v with
      | error e => exact Or.inl rfl
      | ok docs =>
        right
        rcases safe_session_loop_ok _ 3 0 docs hr with ⟨k, _, _, hk3⟩
        cases hat : attemptFail k with
        | some e => rw [hat] at hk3; simp at hk3
        | none =>
          rw [hat] at hk3
          simp at hk3
          simp [hk3]

/-! ## Claim C10: total search failure is indistinguishable from zero matches -/

/-- C10.  When every attempt of the store operation fails (embedding failure
or query failure, persisting through all 3 retries), the public
`search_by_text` swallows the propagated exception and returns the empty
list — exactly what a successful search over a store with no matching
documents returns, so the caller gets no error signal. -/
theorem search_by_text_swallows_total_failure (dist : List ℚ → List ℚ → ℚ)
    (embed : List Char → List ℚ) (rows : List StoredDoc)
    (attemptFail : Nat → Option String)
    (query : List Char) (ministry : String) (n_results : Nat)
    (hfail : ∀ k, k < 3 → attemptFail k ≠ none) :
    search_by_text dist embed rows attemptFail query ministry n_results = []
    ∧ search_by_text dist embed [] (fun _ => none) query ministry n_results = [] := by
  constructor
  · unfold search_by_text
    dsimp only
    split
    · rfl
    · cases hr : (safe_session_operation (fun k =>
          match attemptFail k with
          | some e => Except.error e
          | none => Except.ok
              (search_operation dist (embed (stripL query)) rows ministry n_results)) 3).1 with
      | none => rfl
      | some v =>
        cases v with
        | error e => rfl
        | ok docs =>
          exfalso
          rcases safe_session_loop_ok _ 3 0 docs hr with ⟨k, _, hk2, hk3⟩
          cases hat : attemptFail k with
          | some e => rw [hat] at hk3; simp at hk3
          | none => exact hfail k (by omega) hat
  · unfold search_by_text
    dsimp only
    split
    · rfl
    · simp [safe_session_operation, safe_session_loop, search_operation]

/-- Witness for C10: a store operation that fails on every attempt. -/
theorem search_by_text_swallows_total_failure_witness :
    search_by_text (fun _ _ => 0) (fun t => [(t.length : ℚ)])
        [⟨"a", ("x").data, [1], some ("M")⟩] (fun _ => some ("connection refused"))
        (("query").data) "M" 5 = []
    ∧ search_by_text (fun _ _ => 0) (fun t => [(t.length : ℚ)])
        [] (fun _ => none) (("query").data) "M" 5 = [] :=
  search_by_text_swallows_total_failure (fun _ _ => 0) (fun t => [(t.length : ℚ)])
    [⟨"a", ("x").data, [1], some ("M")⟩] (fun _ => some ("connection refused"))
    (("query").data) "M" 5 (fun _ _ h => Option.noConfusion h)

/-! ## Claim C7: ministry scoping, ordering, truncation -/

instance (dist : List ℚ → List ℚ → ℚ) (qEmb : List ℚ) :
    IsTotal StoredDoc (byDistance dist qEmb) :=
  ⟨fun a b => le_total (dist a.embedding qEmb) (dist b.embedding qEmb)⟩

instance (dist : List ℚ → List ℚ → ℚ) (qEmb : List ℚ) :
    IsTrans StoredDoc (byDistance dist qEmb) :=
  ⟨fun _ _ _ hab hbc => le_trans hab hbc⟩

theorem search_operation_mem (dist : List ℚ → List ℚ → ℚ) (qEmb : List ℚ)
    (rows : List StoredDoc) (ministry : String) (limit : Nat) (r : SearchResult)
    (hr : r ∈ search_operation dist qEmb rows ministry limit) :
    ∃ row, row.ministry = some ministry ∧ r = mkSearchResult dist qEmb row := by
  simp only [search_operation, List.mem_map] at hr
  rcases hr with ⟨row, hrow, rfl⟩
  have h1 : row ∈ List.insertionSort (byDistance dist qEmb)
      (rows.filter fun x => x.ministry == some ministry) :=
    (List.take_sublist _ _).subset hrow
  have h2 : row ∈ rows.filter (fun x => x.ministry == some ministry) :=
    (List.perm_insertionSort _ _).subset h1
  have h3 := (List.mem_filter.mp h2).2
  exact ⟨row, by simpa using h3, rfl⟩

theorem search_operation_sorted (dist : List ℚ → List ℚ → ℚ) (qEmb : List ℚ)
    (rows : List StoredDoc) (ministry : String) (limit : Nat) :
    List.Sorted (fun a b : SearchResult => a.distance ≤ b.distance)
      (search_operation dist qEmb rows ministry limit) := by
  have hs : List.Sorted (byDistance dist qEmb)
      (List.insertionSort (byDistance dist qEmb)
        (rows.filter fun x => x.ministry == some ministry)) :=
    List.sorted_insertionSort _ _
  have ht : List.Sorted (byDistance dist qEmb)
      ((List.insertionSort (byDistance dist qEmb)
        (rows.filter fun x => x.ministry == some ministry)).take limit) :=
    List.Pairwise.sublist (List.take_sublist _ _) hs
  exact List.Pairwise.map (mkSearchResult dist qEmb) (fun _ _ h => h) ht

theorem search_operation_length (dist : List ℚ → List ℚ → ℚ) (qEmb : List ℚ)
    (rows : List StoredDoc) (ministry : String) (limit : Nat) :
    (search_operation dist qEmb rows ministry limit).length ≤ limit := by
  simp [search_operation]

/-- C7.  For every non-empty query: every result returned by
`search_by_text` carries the requested ministry (a row tagged with any other
ministry is never returned), results are ordered ascending by distance, and
at most `n_results` results are returned. -/
theorem search_by_text_ministry_scoping (dist : List ℚ → List ℚ → ℚ)
    (embed : List Char → List ℚ) (rows : List StoredDoc)
    (attemptFail : Nat → Option String)
    (query : List Char) (ministry : String) (n_results : Nat)
    (hq : query ≠ []) :
    (∀ r ∈ search_by_text dist embed rows attemptFail query ministry n_results,
        r.ministry = some ministry)
    ∧ List.Sorted (fun a b : SearchResult => a.distance ≤ b.distance)
        (search_by_text dist embed rows attemptFail query ministry n_results)
    ∧ (search_by_text dist embed rows attemptFail query ministry n_results).length ≤
        n_results := by
  rcases search_by_text_cases dist embed rows attemptFail query ministry n_results with
    h | h <;> rw [h]
  · exact ⟨by simp, List.sorted_nil, by simp⟩
  · refine ⟨?_, search_operation_sorted _ _ _ _ _, search_operation_length _ _ _ _ _⟩
    intro r hr
    rcases search_operation_mem _ _ _ _ _ r hr with ⟨row, hrow, rfl⟩
    simpa [mkSearchResult] using hrow

/-- Witness for C7 at a concrete two-ministry store. -/
theorem search_by_text_ministry_scoping_witness :
    (search_by_text (fun u v => ((u.length - v.length : ℤ) : ℚ))
        (fun t => [(t.length : ℚ)])
        [⟨"a", ("x").data, [1], some ("M")⟩, ⟨"b", ("y").data, [1, 2], some ("N")⟩]
        (fun _ => none) (("query").data) "M" 5).length ≤ 5 :=
  (search_by_text_ministry_scoping (fun u v => ((u.length - v.length : ℤ) : ℚ))
    (fun t => [(t.length : ℚ)])
    [⟨"a", ("x").data, [1], some ("M")⟩, ⟨"b", ("y").data, [1, 2], some ("N")⟩]
    (fun _ => none) (("query").data) "M" 5 (by decide)).2.2

/-! ## Claim C2: relevance score is monotone and clamped -/

/-- C2.  `relevance_score = max(0, 1 - distance)` as computed by
`search_by_text`: it is antitone in the distance (`d1 < d2` implies
`relevance_score d1 ≥ relevance_score d2`), lies in `[0, 1]` for every
distance `≥ 0`, and every result produced by `search_by_text` carries
exactly this score of its own distance. -/
theorem relevance_score_monotone_clamped :
    (∀ d1 d2 : ℚ, d1 < d2 → relevance_score d2 ≤ relevance_score d1)
    ∧ (∀ d : ℚ, 0 ≤ d → 0 ≤ relevance_score d ∧ relevance_score d ≤ 1)
    ∧ (∀ (dist : List ℚ → List ℚ → ℚ) (embed : List Char → List ℚ)
        (rows : List StoredDoc) (attemptFail : Nat → Option String)
        (query : List Char) (ministry : String) (n_results : Nat)
        (r : SearchResult),
        r ∈ search_by_text dist embed rows attemptFail query ministry n_results →
        r.relevance_score = max 0 (1 - r.distance)) := by
  refine ⟨?_, ?_, ?_⟩
  · intro d1 d2 h
    exact max_le_max (le_refl 0) (by linarith)
  · intro d h
    exact ⟨le_max_left 0 _, max_le (by norm_num) (by linarith)⟩
  · intro dist embed rows attemptFail query ministry n_results r hr
    rcases search_by_text_cases dist embed rows attemptFail query ministry n_results with
      h | h <;> rw [h] at hr
    · simp at hr
    · rcases search_operation_mem _ _ _ _ _ r hr with ⟨row, _, rfl⟩
      rfl

/-- Witness for C2 at concrete distances. -/
theorem relevance_score_monotone_clamped_witness :
    relevance_score 1 ≤ relevance_score 0
    ∧ 0 ≤ relevance_score 1 ∧ relevance_score 1 ≤ 1 := by
  refine ⟨relevance_score_monotone_clamped.1 0 1 zero_lt_one, ?_⟩
  have h := relevance_score_monotone_clamped.2.1 1 zero_le_one
  exact ⟨h.1, h.2⟩

/-! ## Helper lemmas: the batched upsert -/

theorem mergeStep_eq (embed : List Char → List ℚ) (ministry : Option String)
    (acc : List StoredDoc × Nat) (d : InputDoc) :
    mergeStep embed ministry acc d =
      (rowsOnlyStep embed ministry acc.1 d,
        acc.2 + (if (stripL d.text).isEmpty then 0 else 1)) := by
  unfold mergeStep rowsOnlyStep
  split <;> simp

theorem foldl_mergeStep_eq (embed : List Char → List ℚ) (ministry : Option String) :
    ∀ (l : List InputDoc) (rows : List StoredDoc) (n : Nat),
      l.foldl (mergeStep embed ministry) (rows, n) =
        (l.foldl (rowsOnlyStep embed ministry) rows,
          n + (l.filter (fun d => !(stripL d.text).isEmpty)).length) := by
  intro l
  induction l with
  | nil => intro rows n; simp
  | cons d ds ih =>
    intro rows n
    rw [List.foldl_cons, mergeStep_eq, ih, List.foldl_cons]
    by_cases hd : (stripL d.text).isEmpty <;> simp [hd, List.filter_cons] <;> omega

theorem addBatchesFuel_eq (embed : List Char → List ℚ) (ministry : Option String) :
    ∀ (fuel : Nat) (l : List InputDoc) (rows : List StoredDoc), l.length ≤ fuel →
      addBatchesFuel embed ministry fuel rows l =
        (l.foldl (rowsOnlyStep embed ministry) rows,
          (l.filter (fun d => !(stripL d.text).isEmpty)).length) := by
  intro fuel
  induction fuel with
  | zero =>
    intro l rows hl
    cases l with
    | nil => simp [addBatchesFuel]
    | cons d ds => simp at hl
  | succ n ih =>
    intro l rows hl
    cases l with
    | nil => simp [addBatchesFuel]
    | cons d ds =>
      have hsplit : (d :: ds).take 10 ++ ds.drop 9 = d :: ds := by
        rw [show (10 : Nat) = 9 + 1 from rfl, List.take_succ_cons, List.cons_append,
          List.take_append_drop]
      have hlen : (ds.drop 9).length ≤ n := by
        simp only [List.length_drop]
        simp at hl
        omega
      rw [addBatchesFuel]
      simp only [batchOperation]
      rw [foldl_mergeStep_eq, ih (ds.drop 9) _ hlen]
      rw [← hsplit, List.foldl_append, List.filter_append, List.length_append]
      simp [Nat.add_comm]

theorem addBatches_eq (embed : List Char → List ℚ) (ministry : Option String)
    (rows : List StoredDoc) (l : List InputDoc) :
    addBatches embed ministry rows l =
      (l.foldl (rowsOnlyStep embed ministry) rows,
        (l.filter (fun d => !(stripL d.text).isEmpty)).length) :=
  addBatchesFuel_eq embed ministry l.length l rows (le_refl _)

theorem mergeDoc_any_true (rows : List StoredDoc) (d : StoredDoc)
    (h : rows.any (fun r => r.id == d.id) = true) :
    (mergeDoc rows d).map (fun r => r.id) = rows.map (fun r => r.id)
    ∧ (mergeDoc rows d).length = rows.length := by
  constructor
  · rw [mergeDoc, if_pos h, List.map_map]
    apply List.map_congr_left
    intro r _
    simp only [Function.comp_apply]
    split
    · next hbe => exact (beq_iff_eq.mp hbe).symm
    · rfl
  · rw [mergeDoc, if_pos h, List.length_map]

theorem mergeDoc_any_false (rows : List StoredDoc) (d : StoredDoc)
    (h : rows.any (fun r => r.id == d.id) = false) : mergeDoc rows d = rows ++ [d] := by
  rw [mergeDoc, if_neg (by simp [h])]

theorem any_id_iff_mem (rows : List StoredDoc) (i : String) :
    rows.any (fun r => r.id == i) = true ↔ i ∈ rows.map (fun r => r.id) := by
  simp only [List.any_eq_true, List.mem_map, beq_iff_eq]

theorem rowsOnlyStep_ids_mono (embed : List Char → List ℚ) (ministry : Option String)
    (rows : List StoredDoc) (d : InputDoc) :
    rows.map (fun r => r.id) ⊆ (rowsOnlyStep embed ministry rows d).map (fun r => r.id) := by
  rw [rowsOnlyStep]
  split
  · exact fun x hx => hx
  · cases hany : (rows.any (fun r => r.id == (mkStoredDoc embed ministry d).id)) with
    | true => rw [(mergeDoc_any_true _ _ hany).1]; exact fun x hx => hx
    | false =>
      rw [mergeDoc_any_false _ _ hany]
      intro x hx
      simp only [List.map_append, List.mem_append]
      exact Or.inl hx

theorem foldl_rowsOnly_ids_mono (embed : List Char → List ℚ) (ministry : Option String) :
    ∀ (l : List InputDoc) (rows : List StoredDoc),
      rows.map (fun r => r.id) ⊆
        (l.foldl (rowsOnlyStep embed ministry) rows).map (fun r => r.id) := by
  intro l
  induction l with
  | nil => intro rows; exact fun x hx => hx
  | cons d ds ih =>
    intro rows
    exact fun x hx => ih (rowsOnlyStep embed ministry rows d) (rowsOnlyStep_ids_mono embed ministry rows d hx)

theorem foldl_rowsOnly_covers (embed : List Char → List ℚ) (ministry : Option String) :
    ∀ (l : List InputDoc) (rows : List StoredDoc) (d : InputDoc), d ∈ l →
      (stripL d.text).isEmpty = false →
      d.id ∈ (l.foldl (rowsOnlyStep embed ministry) rows).map (fun r => r.id) := by
  intro l
  induction l with
  | nil => intro rows d hd; simp at hd
  | cons x xs ih =>
    intro rows d hd hne
    rcases List.mem_cons.mp hd with rfl | hd2
    · apply foldl_rowsOnly_ids_mono embed ministry xs
      rw [rowsOnlyStep, if_neg (by simp [hne])]
      cases hany : (rows.any (fun r => r.id == (mkStoredDoc embed ministry d).id)) with
      | true =>
        rw [(mergeDoc_any_true _ _ hany).1]
        have h1 := (any_id_iff_mem rows (mkStoredDoc embed ministry d).id).mp hany
        simpa [mkStoredDoc] using h1
      | false =>
        rw [mergeDoc_any_false _ _ hany]
        simp [mkStoredDoc]
    · exact ih _ d hd2 hne

theorem foldl_rowsOnly_stable (embed : List Char → List ℚ) (ministry : Option String) :
    ∀ (l : List InputDoc) (rows : List StoredDoc),
      (∀ d ∈ l, (stripL d.text).isEmpty = false →
        d.id ∈ rows.map (fun r => r.id)) →
      (l.foldl (rowsOnlyStep embed ministry) rows).length = rows.length
      ∧ (l.foldl (rowsOnlyStep embed ministry) rows).map (fun r => r.id) =
          rows.map (fun r => r.id) := by
  intro l
  induction l with
  | nil => intro rows _; exact ⟨rfl, rfl⟩
  | cons d ds ih =>
    intro rows hcov
    rw [List.foldl_cons]
    by_cases hd : (stripL d.text).isEmpty
    · rw [rowsOnlyStep, if_pos hd]
      exact ih rows (fun x hx h => hcov x (List.mem_cons_of_mem d hx) h)
    · have hmem : d.id ∈ rows.map (fun r => r.id) :=
        hcov d (List.mem_cons_self d ds) (by simp [hd])
      have hany : rows.any (fun r => r.id == (mkStoredDoc embed ministry d).id) = true := by
        apply (any_id_iff_mem _ _).mpr
        simpa [mkStoredDoc] using hmem
      rw [rowsOnlyStep, if_neg hd]
      rcases mergeDoc_any_true rows (mkStoredDoc embed ministry d) hany with ⟨hids, hlen⟩
      rcases ih (mergeDoc rows (mkStoredDoc embed ministry d))
          (fun x hx h => by rw [hids]; exact hcov x (List.mem_cons_of_mem d hx) h) with ⟨h1, h2⟩
      exact ⟨by rw [h1, hlen], by rw [h2, hids]⟩

theorem foldl_rowsOnly_nodup (embed : List Char → List ℚ) (ministry : Option String) :
    ∀ (l : List InputDoc) (rows : List StoredDoc),
      ((rows.map (fun r => r.id)).Nodup) →
      (((l.foldl (rowsOnlyStep embed ministry) rows).map (fun r => r.id)).Nodup) := by
  intro l
  induction l with
  | nil => intro rows h; exact h
  | cons d ds ih =>
    intro rows h
    rw [List.foldl_cons]
    apply ih
    rw [rowsOnlyStep]
    split
    · exact h
    · cases hany : (rows.any (fun r => r.id == (mkStoredDoc embed ministry d).id)) with
      | true => rw [(mergeDoc_any_true _ _ hany).1]; exact h
      | false =>
        rw [mergeDoc_any_false _ _ hany]
        have hnm : (mkStoredDoc embed ministry d).id ∉ rows.map (fun r => r.id) := by
          intro hmem
          rw [(any_id_iff_mem _ _).mpr hmem] at hany
          exact absurd hany (by decide)
        simp only [List.map_append, List.map_cons, List.map_nil]
        exact List.Nodup.append h (List.nodup_singleton _) (by
          intro a ha hb
          simp only [List.mem_singleton] at hb
          subst hb
          exact hnm ha)

/-! ## Claim C4: upsert idempotence -/

/-- C4.  Re-running `add_documents` with the same documents and ministry
leaves the stored row count unchanged: every chunk is upserted by id via
merge, never duplicated.  Moreover the store never acquires duplicate ids
(when the initial store has none). -/
theorem add_documents_upsert_idempotent (embed : List Char → List ℚ)
    (st : VectorStoreSt) (docs : List InputDoc) (ministry : Option String) :
    (add_documents embed (add_documents embed st docs ministry).1 docs ministry).1.documents.length
      = (add_documents embed st docs ministry).1.documents.length
    ∧ ((st.documents.map (fun r => r.id)).Nodup →
        ((add_documents embed st docs ministry).1.documents.map (fun r => r.id)).Nodup) := by
  by_cases hd : docs.isEmpty
  · simp [add_documents, add_documents_batch, hd]
  · have hdocs1 : (add_documents embed st docs ministry).1.documents =
        docs.foldl (rowsOnlyStep embed ministry) st.documents := by
      simp only [add_documents, add_documents_batch, hd, Bool.false_eq_true, if_false,
        addBatches_eq]
    have hdocs2 : (add_documents embed (add_documents embed st docs ministry).1 docs ministry).1.documents =
        docs.foldl (rowsOnlyStep embed ministry)
          (docs.foldl (rowsOnlyStep embed ministry) st.documents) := by
      simp only [add_documents, add_documents_batch, hd, Bool.false_eq_true, if_false,
        addBatches_eq]
    constructor
    · rw [hdocs1, hdocs2]
      exact (foldl_rowsOnly_stable embed ministry docs _
        (fun d hdm hne => foldl_rowsOnly_covers embed ministry docs st.documents d hdm
          (by simpa using hne))).1
    · intro hnd
      rw [hdocs1]
      exact foldl_rowsOnly_nodup embed ministry docs st.documents hnd

/-- Witness for C4 at a concrete store and document batch (one duplicate id
inside the batch, one pre-existing row). -/
theorem add_documents_upsert_idempotent_witness :
    (add_documents (fun t => [(t.length : ℚ)])
        (add_documents (fun t => [(t.length : ℚ)])
          ⟨[⟨"old", ("z").data, [1], some ("M")⟩], ["M"]⟩
          [⟨"a_chunk_0", ("hello").data, none⟩, ⟨"a_chunk_1", ("world").data, none⟩,
            ⟨"a_chunk_0", ("hello2").data, none⟩]
          (some ("M"))).1
        [⟨"a_chunk_0", ("hello").data, none⟩, ⟨"a_chunk_1", ("world").data, none⟩,
          ⟨"a_chunk_0", ("hello2").data, none⟩]
        (some ("M"))).1.documents.length
      = (add_documents (fun t => [(t.length : ℚ)])
          ⟨[⟨"old", ("z").data, [1], some ("M")⟩], ["M"]⟩
          [⟨"a_chunk_0", ("hello").data, none⟩, ⟨"a_chunk_1", ("world").data, none⟩,
            ⟨"a_chunk_0", ("hello2").data, none⟩]
          (some ("M"))).1.documents.length
    ∧ ((add_documents (fun t => [(t.length : ℚ)])
          ⟨[⟨"old", ("z").data, [1], some ("M")⟩], ["M"]⟩
          [⟨"a_chunk_0", ("hello").data, none⟩, ⟨"a_chunk_1", ("world").data, none⟩,
            ⟨"a_chunk_0", ("hello2").data, none⟩]
          (some ("M"))).1.documents.map (fun r => r.id)).Nodup := by
  have h := add_documents_upsert_idempotent (fun t => [(t.length : ℚ)])
    ⟨[⟨"old", ("z").data, [1], some ("M")⟩], ["M"]⟩
    [⟨"a_chunk_0", ("hello").data, none⟩, ⟨"a_chunk_1", ("world").data, none⟩,
      ⟨"a_chunk_0", ("hello2").data, none⟩]
    (some ("M"))
  exact ⟨h.1, h.2 (by decide)⟩

/-! ## Claim C8: ministry index state tracking -/

/-- C8.  A successful `add_documents` call that adds at least one document
for a (truthy) ministry makes `is_ministry_indexed` true for it afterwards;
`clear_ministry_documents` removes exactly that ministry from the in-memory
set and leaves no row of that ministry in the store; `clear_all` empties
both the set and the store. -/
theorem ministry_index_state_tracking (embed : List Char → List ℚ)
    (st : VectorStoreSt) (docs : List InputDoc) :
    (∀ m : String, m ≠ "" →
        0 < (add_documents embed st docs (some m)).2 →
        is_ministry_indexed (add_documents embed st docs (some m)).1 m = true)
    ∧ (∀ m : String, st.indexed_ministries.Nodup →
        (∀ x, x ∈ (clear_ministry_documents st m).indexed_ministries ↔
            (x ∈ st.indexed_ministries ∧ x ≠ m))
        ∧ (∀ r ∈ (clear_ministry_documents st m).documents, r.ministry ≠ some m))
    ∧ (clear_all st).indexed_ministries = [] ∧ (clear_all st).documents = [] := by
  refine ⟨?_, ?_, rfl, rfl⟩
  · intro m hm hpos
    by_cases hd : docs.isEmpty
    · simp [add_documents, add_documents_batch, hd] at hpos
    · have hmn : m.isEmpty = false := by
        cases hme : m.isEmpty with
        | true => exact absurd ((String.isEmpty_iff m).mp hme) hm
        | false => rfl
      simp only [add_documents, add_documents_batch, hd, Bool.false_eq_true, if_false] at hpos ⊢
      rw [if_pos (by simpa [hmn] using hpos)]
      simp only [is_ministry_indexed, insertIfAbsent]
      split
      · next hmem => simpa [List.contains] using List.elem_iff.mpr hmem
      · simpa [List.contains] using List.elem_iff.mpr (by simp)
  · intro m hnd
    constructor
    · intro x
      simp only [clear_ministry_documents]
      rw [List.Nodup.mem_erase_iff hnd]
      exact ⟨fun h => ⟨h.2, h.1⟩, fun h => ⟨h.2, h.1⟩⟩
    · intro r hr
      simp only [clear_ministry_documents] at hr
      have := (List.mem_filter.mp hr).2
      simpa using this

/-- Witness for C8 at a concrete store. -/
theorem ministry_index_state_tracking_witness :
    is_ministry_indexed
      (add_documents (fun t => [(t.length : ℚ)]) ⟨[], []⟩
        [⟨"a_chunk_0", ("hello").data, none⟩] (some ("M"))).1 ("M") = true
    ∧ (clear_all (⟨[⟨"a", ("h").data, [], some ("M")⟩], ["M"]⟩ : VectorStoreSt)).indexed_ministries
        = [] := by
  have h := ministry_index_state_tracking (fun t => [(t.length : ℚ)]) ⟨[], []⟩
    [⟨"a_chunk_0", ("hello").data, none⟩]
  have h2 := ministry_index_state_tracking (fun t => [(t.length : ℚ)])
    (⟨[⟨"a", ("h").data, [], some ("M")⟩], ["M"]⟩ : VectorStoreSt) []
  exact ⟨h.1 ("M") (by decide) (by decide), h2.2.2.1⟩

/-! ## Claim C5: chunking determinism and idempotent ids -/

theorem buildDocs_map_snd (filename : String) :
    ∀ (l : List (List Char)) (j : Nat), (buildDocs filename j l).map Prod.snd = l := by
  intro l
  induction l with
  | nil => intro j; rfl
  | cons c cs ih => intro j; simp [buildDocs, ih (j + 1)]

theorem buildDocs_map_fst (filename : String) :
    ∀ (l : List (List Char)) (j : Nat),
      (buildDocs filename j l).map Prod.fst =
        (List.range l.length).map (fun i => filename ++ "_chunk_" ++ toString (j + i)) := by
  intro l
  induction l with
  | nil => intro j; rfl
  | cons c cs ih =>
    intro j
    rw [buildDocs, List.map_cons, ih (j + 1), List.length_cons, List.range_succ_eq_map,
      List.map_cons, List.map_map]
    refine congrArg₂ List.cons (by rw [Nat.add_zero]) ?_
    apply List.map_congr_left
    intro i _
    simp only [Function.comp_apply]
    rw [show j + 1 + i = j + (i + 1) by omega]

/-- C5.  Chunking and document construction are deterministic: two
invocations of `process_pdf_from_bytes`-style document building on the same
cleaned text produce the identical sequence, whose text components are
exactly the chunk sequence of `chunk_text` (with the default
`chunk_size = 1000`, `overlap = 200`) and whose id at position `i` is
exactly `"{filename}_chunk_{i}"`. -/
theorem process_pdf_documents_deterministic (filename : String) (cleaned_text : List Char) :
    process_pdf_documents filename cleaned_text = process_pdf_documents filename cleaned_text
    ∧ (process_pdf_documents filename cleaned_text).map Prod.snd =
        chunk_text cleaned_text 1000 200
    ∧ (process_pdf_documents filename cleaned_text).map Prod.fst =
        (List.range (chunk_text cleaned_text 1000 200).length).map
          (fun i => filename ++ "_chunk_" ++ toString i) := by
  refine ⟨rfl, buildDocs_map_snd filename _ 0, ?_⟩
  rw [process_pdf_documents, buildDocs_map_fst filename _ 0]
  apply List.map_congr_left
  intro i _
  rw [Nat.zero_add]

/-! ## Claim C1: chunk length bound -/

theorem le_foldr_max (a : Nat) : ∀ l : List Nat, a ∈ l → a ≤ l.foldr max 0 := by
  intro l
  induction l with
  | nil => intro h; simp at h
  | cons x xs ih =>
    intro h
    rcases List.mem_cons.mp h with rfl | h2
    · exact le_max_left _ _
    · exact le_trans (ih h2) (le_max_right _ _)

theorem sentence_le_maxSentenceLen (text : List Char) (s : List Char)
    (h : s ∈ pySentences text) : s.length ≤ maxSentenceLen text :=
  le_foldr_max s.length _ (List.mem_map_of_mem List.length h)

theorem chunkStep_bound (chunkSize overlap L : Nat) (s : List Char) (hs : s.length ≤ L)
    (st : ChunkSt)
    (h1 : ∀ c ∈ st.chunks, c.length ≤ max chunkSize L + overlap + 1)
    (h2 : st.current.length ≤ max chunkSize L + overlap + 1) :
    (∀ c ∈ (chunkStep chunkSize overlap st s).chunks,
        c.length ≤ max chunkSize L + overlap + 1)
    ∧ (chunkStep chunkSize overlap st s).current.length ≤ max chunkSize L + overlap + 1 := by
  have hmaxL : L ≤ max chunkSize L := le_max_right _ _
  have hmaxC : chunkSize ≤ max chunkSize L := le_max_left _ _
  have hsL : s.length ≤ max chunkSize L + overlap + 1 := by omega
  unfold chunkStep
  split
  · next htrig =>
    split
    · next hemp => exact ⟨h1, hsL⟩
    · next hemp =>
      refine ⟨?_, ?_⟩
      · intro c hc
        rcases List.mem_append.mp hc with hc1 | hc2
        · exact h1 c hc1
        · rw [List.mem_singleton.mp hc2]
          exact le_trans (stripL_length_le st.current) h2
      · split
        · next hov =>
          have hlen : (st.current.drop (st.current.length - overlap) ++ ' ' :: s).length
              = overlap + 1 + s.length := by
            simp only [List.length_append, List.length_drop, List.length_cons]
            omega
          rw [hlen]
          omega
        · next hov => exact hsL
  · next htrig =>
    have hfit : st.current.length + s.length ≤ chunkSize := by omega
    refine ⟨h1, ?_⟩
    split
    · next hemp =>
      have hcur0 : st.current.length = 0 := by
        rw [List.isEmpty_iff.mp hemp]
        rfl
      dsimp only
      omega
    · next hemp =>
      simp only [List.length_append, List.length_cons]
      omega

theorem foldl_chunkStep_bound (chunkSize overlap L : Nat) :
    ∀ (ss : List (List Char)) (st : ChunkSt), (∀ s ∈ ss, s.length ≤ L) →
      (∀ c ∈ st.chunks, c.length ≤ max chunkSize L + overlap + 1) →
      st.current.length ≤ max chunkSize L + overlap + 1 →
      (∀ c ∈ (ss.foldl (chunkStep chunkSize overlap) st).chunks,
          c.length ≤ max chunkSize L + overlap + 1)
      ∧ (ss.foldl (chunkStep chunkSize overlap) st).current.length ≤
          max chunkSize L + overlap + 1 := by
  intro ss
  induction ss with
  | nil => intro st _ h1 h2; exact ⟨h1, h2⟩
  | cons s rest ih =>
    intro st hss h1 h2
    rw [List.foldl_cons]
    rcases chunkStep_bound chunkSize overlap L s (hss s (List.mem_cons_self s rest)) st h1 h2
      with ⟨h1s, h2s⟩
    exact ih _ (fun x hx => hss x (List.mem_cons_of_mem s hx)) h1s h2s

/-- C1 (amended).  Every chunk produced by `chunk_text` has length at most
`max chunk_size L + overlap + 1`, where `L` is the length of the longest
sentence: the `+ 1` is the joining space that the accumulation step does not
count against the budget, and a sentence longer than the budget enters the
bound through `L` (it may additionally drag the preceding overlap seed and a
space into its own chunk). -/
theorem chunk_text_length_bound (text : List Char) (chunkSize overlap : Nat) :
    ∀ c ∈ chunk_text text chunkSize overlap,
      c.length ≤ max chunkSize (maxSentenceLen text) + overlap + 1 := by
  intro c hc
  by_cases hemp : text.isEmpty
  · rw [chunk_text, if_pos hemp] at hc
    simp at hc
  · rw [chunk_text, if_neg hemp] at hc
    dsimp only at hc
    rcases foldl_chunkStep_bound chunkSize overlap (maxSentenceLen text)
        (pySentences text) ⟨[], []⟩
        (fun s hs => sentence_le_maxSentenceLen text s hs)
        (by intro x hx; simp at hx) (by simp) with ⟨hchunks, hcur⟩
    split at hc
    · exact hchunks c hc
    · rcases List.mem_append.mp hc with hc1 | hc2
      · exact hchunks c hc1
      · rw [List.mem_singleton.mp hc2]
        exact le_trans (stripL_length_le _) hcur

/-- Counterexample to C1 as stated: with `chunk_size = 5` and `overlap = 0`
the text `"abc.de."` yields the single chunk `"abc de"` of length 6 — it is
not a single oversized sentence (both sentences have length < 5), yet its
length exceeds `max_chars + overlap_chars = 5`.  The accumulation check
`len(current_chunk) + len(sentence) > chunk_size` does not count the joining
space added by `current_chunk += " " + sentence`. -/
theorem chunk_text_length_bound_counterexample :
    ¬ (∀ c ∈ chunk_text (("abc.de.").data) 5 0, c.length ≤ 5 + 0) := by
  decide

/-- Witness for the amended C1 at a concrete text. -/
theorem chunk_text_length_bound_witness :
    ("abc de").data ∈ chunk_text (("abc.de.").data) 5 0
    ∧ (("abc de").data).length ≤ max 5 (maxSentenceLen (("abc.de.").data)) + 0 + 1 :=
  ⟨by decide, chunk_text_length_bound (("abc.de.").data) 5 0 (("abc de").data) (by decide)⟩

/-! ## Claim C6: no content loss -/

theorem chunkStepS_proj (chunkSize overlap : Nat) (st : ChunkStS) (s : List Char) :
    projS (chunkStepS chunkSize overlap st s) = chunkStep chunkSize overlap (projS st) s := by
  unfold chunkStepS chunkStep projS
  dsimp only
  split_ifs <;> simp [List.map_append]

theorem foldl_chunkStepS_proj (chunkSize overlap : Nat) :
    ∀ (ss : List (List Char)) (st : ChunkStS),
      projS (ss.foldl (chunkStepS chunkSize overlap) st) =
        ss.foldl (chunkStep chunkSize overlap) (projS st) := by
  intro ss
  induction ss with
  | nil => intro st; rfl
  | cons s rest ih =>
    intro st
    rw [List.foldl_cons, List.foldl_cons, ih, chunkStepS_proj]

theorem chunk_text_sents_fst (text : List Char) (chunkSize overlap : Nat) :
    (chunk_text_sents text chunkSize overlap).map Prod.fst =
      chunk_text text chunkSize overlap := by
  by_cases hemp : text.isEmpty
  · rw [chunk_text_sents, chunk_text, if_pos hemp, if_pos hemp]
    rfl
  · rw [chunk_text_sents, chunk_text, if_neg hemp, if_neg hemp]
    dsimp only
    have hp : projS ((pySentences text).foldl (chunkStepS chunkSize overlap) ⟨[], [], []⟩) =
        (pySentences text).foldl (chunkStep chunkSize overlap) ⟨[], []⟩ :=
      foldl_chunkStepS_proj chunkSize overlap (pySentences text) ⟨[], [], []⟩
    have hcur : ((pySentences text).foldl (chunkStepS chunkSize overlap) ⟨[], [], []⟩).current =
        ((pySentences text).foldl (chunkStep chunkSize overlap) ⟨[], []⟩).current :=
      congrArg ChunkSt.current hp
    have hchunks : ((pySentences text).foldl (chunkStepS chunkSize overlap)
          ⟨[], [], []⟩).chunks.map Prod.fst =
        ((pySentences text).foldl (chunkStep chunkSize overlap) ⟨[], []⟩).chunks :=
      congrArg ChunkSt.chunks hp
    rw [← hcur]
    split_ifs
    · exact hchunks
    · rw [List.map_append, hchunks]
      rfl

theorem chunkStepS_totalSents (chunkSize overlap : Nat) (st : ChunkStS) (s : List Char) :
    totalSents (chunkStepS chunkSize overlap st s) = totalSents st ++ [s] := by
  unfold chunkStepS totalSents
  split_ifs <;> simp [List.flatten_append]

theorem foldl_chunkStepS_totalSents (chunkSize overlap : Nat) :
    ∀ (ss : List (List Char)) (st : ChunkStS),
      totalSents (ss.foldl (chunkStepS chunkSize overlap) st) = totalSents st ++ ss := by
  intro ss
  induction ss with
  | nil => intro st; simp
  | cons s rest ih =>
    intro st
    rw [List.foldl_cons, ih, chunkStepS_totalSents]
    simp

theorem pySentences_good (text : List Char) :
    ∀ s ∈ pySentences text, s ≠ [] ∧ noEdgeSpace s := by
  intro s hs
  rcases List.mem_filter.mp hs with ⟨hmem, hne⟩
  rcases List.mem_map.mp hmem with ⟨x, _, rfl⟩
  refine ⟨?_, stripL_noEdgeSpace x⟩
  simpa [List.isEmpty_iff] using hne

theorem chunkStepS_good (chunkSize overlap : Nat) (st : ChunkStS) (s : List Char)
    (hst : goodS st) (hs : s ≠ []) (hedge : noEdgeSpace s) :
    goodS (chunkStepS chunkSize overlap st s) := by
  obtain ⟨hemp, hsent, hchunks⟩ := hst
  unfold chunkStepS
  split_ifs with h1 h2 h3 h4
  · -- buffer trigger with an empty buffer: take the sentence as the buffer
    have hcs : st.currentSents = [] := hemp (List.isEmpty_iff.mp h2)
    refine ⟨fun hc => absurd hc hs, ?_, hchunks⟩
    intro x hx
    rw [hcs, List.nil_append, List.mem_singleton] at hx
    subst hx
    exact ⟨hs, hedge, containsSeg_refl x⟩
  · -- emit the buffer, seed the next buffer with the last `overlap` characters
    refine ⟨fun hc => by simp at hc, ?_, ?_⟩
    · intro x hx
      rw [List.mem_singleton] at hx
      subst hx
      refine ⟨hs, hedge, ?_⟩
      exact containsSeg_of_eq_append x
        (st.current.drop (st.current.length - overlap) ++ [' ']) [] _ (by simp)
    · intro p hp
      rcases List.mem_append.mp hp with hp1 | hp2
      · exact hchunks p hp1
      · rw [List.mem_singleton.mp hp2]
        intro x hx
        rcases hsent x hx with ⟨hxne, hxedge, hxseg⟩
        exact containsSeg_stripL x st.current hxne hxedge hxseg
  · -- emit the buffer, start the next buffer from the sentence alone
    refine ⟨fun hc => absurd hc hs, ?_, ?_⟩
    · intro x hx
      rw [List.mem_singleton] at hx
      subst hx
      exact ⟨hs, hedge, containsSeg_refl x⟩
    · intro p hp
      rcases List.mem_append.mp hp with hp1 | hp2
      · exact hchunks p hp1
      · rw [List.mem_singleton.mp hp2]
        intro x hx
        rcases hsent x hx with ⟨hxne, hxedge, hxseg⟩
        exact containsSeg_stripL x st.current hxne hxedge hxseg
  · -- append to an empty buffer
    have hcs : st.currentSents = [] := hemp (List.isEmpty_iff.mp h4)
    refine ⟨fun hc => absurd hc hs, ?_, hchunks⟩
    intro x hx
    rw [hcs, List.nil_append, List.mem_singleton] at hx
    subst hx
    exact ⟨hs, hedge, containsSeg_refl x⟩
  · -- append to a non-empty buffer with a joining space
    refine ⟨fun hc => by simp at hc, ?_, hchunks⟩
    intro x hx
    rcases List.mem_append.mp hx with hx1 | hx2
    · rcases hsent x hx1 with ⟨hxne, hxedge, hxseg⟩
      exact ⟨hxne, hxedge, containsSeg_append_right x st.current (' ' :: s) hxseg⟩
    · rw [List.mem_singleton.mp hx2]
      exact ⟨hs, hedge, containsSeg_of_eq_append s (st.current ++ [' ']) [] _ (by simp)⟩

theorem foldl_chunkStepS_good (chunkSize overlap : Nat) :
    ∀ (ss : List (List Char)) (st : ChunkStS), goodS st →
      (∀ s ∈ ss, s ≠ [] ∧ noEdgeSpace s) →
      goodS (ss.foldl (chunkStepS chunkSize overlap) st) := by
  intro ss
  induction ss with
  | nil => intro st h _; exact h
  | cons s rest ih =>
    intro st h hss
    rw [List.foldl_cons]
    rcases hss s (List.mem_cons_self s rest) with ⟨hs, hedge⟩
    exact ih _ (chunkStepS_good chunkSize overlap st s h hs hedge)
      (fun x hx => hss x (List.mem_cons_of_mem s hx))

/-- C6.  Empty input yields the empty chunk sequence, and chunking never
drops content: the instrumented chunker assigns to every chunk the original
sentences accumulated into it, this assignment projects onto the chunks of
`chunk_text`, concatenating the per-chunk sentence lists reconstructs the
full input sentence sequence in order, and each recorded sentence occurs
verbatim inside its chunk. -/
theorem chunk_text_no_content_loss (text : List Char) (chunkSize overlap : Nat) :
    (text = [] → chunk_text text chunkSize overlap = [])
    ∧ (chunk_text_sents text chunkSize overlap).map Prod.fst =
        chunk_text text chunkSize overlap
    ∧ ((chunk_text_sents text chunkSize overlap).map Prod.snd).flatten = pySentences text
    ∧ ∀ p ∈ chunk_text_sents text chunkSize overlap, ∀ s ∈ p.2, containsSeg s p.1 = true := by
  have hinit : goodS ⟨[], [], []⟩ :=
    ⟨fun _ => rfl, by intro x hx; simp at hx, by intro p hp; simp at hp⟩
  refine ⟨?_, chunk_text_sents_fst text chunkSize overlap, ?_, ?_⟩
  · intro h
    subst h
    rfl
  · by_cases hemp : text.isEmpty
    · rw [chunk_text_sents, if_pos hemp]
      rw [List.isEmpty_iff.mp hemp]
      rfl
    · rw [chunk_text_sents, if_neg hemp]
      dsimp only
      have htot : totalSents ((pySentences text).foldl (chunkStepS chunkSize overlap)
          ⟨[], [], []⟩) = pySentences text := by
        rw [foldl_chunkStepS_totalSents]
        rfl
      have hgood : goodS ((pySentences text).foldl (chunkStepS chunkSize overlap)
          ⟨[], [], []⟩) :=
        foldl_chunkStepS_good chunkSize overlap (pySentences text) ⟨[], [], []⟩ hinit
          (pySentences_good text)
      split_ifs with hcur
      · have hcs : ((pySentences text).foldl (chunkStepS chunkSize overlap)
            ⟨[], [], []⟩).currentSents = [] := by
          by_contra hne
          rcases List.exists_mem_of_ne_nil _ hne with ⟨x, hx⟩
          rcases hgood.2.1 x hx with ⟨hxne, hxedge, hxseg⟩
          exact stripL_ne_nil_of_containsSeg x _ hxne hxedge hxseg (List.isEmpty_iff.mp hcur)
        conv_rhs => rw [← htot]
        simp [totalSents, hcs]
      · conv_rhs => rw [← htot]
        simp [totalSents, List.flatten_append]
  · by_cases hemp : text.isEmpty
    · rw [chunk_text_sents, if_pos hemp]
      intro p hp
      simp at hp
    · rw [chunk_text_sents, if_neg hemp]
      dsimp only
      have hgood : goodS ((pySentences text).foldl (chunkStepS chunkSize overlap)
          ⟨[], [], []⟩) :=
        foldl_chunkStepS_good chunkSize overlap (pySentences text) ⟨[], [], []⟩ hinit
          (pySentences_good text)
      split_ifs with hcur
      · intro p hp
        exact hgood.2.2 p hp
      · intro p hp
        rcases List.mem_append.mp hp with hp1 | hp2
        · exact hgood.2.2 p hp1
        · rw [List.mem_singleton.mp hp2]
          intro x hx
          rcases hgood.2.1 x hx with ⟨hxne, hxedge, hxseg⟩
          exact containsSeg_stripL x _ hxne hxedge hxseg

/-- Witness for C6: the empty text, and a concrete text whose per-chunk
sentences concatenate back to its sentence sequence. -/
theorem chunk_text_no_content_loss_witness :
    chunk_text ([] : List Char) 5 2 = []
    ∧ ((chunk_text_sents (("Alpha beta. Gamma. Delta epsilon zeta.").data) 12 4).map
        Prod.snd).flatten = pySentences (("Alpha beta. Gamma. Delta epsilon zeta.").data) :=
  ⟨(chunk_text_no_content_loss [] 5 2).1 rfl,
   (chunk_text_no_content_loss (("Alpha beta. Gamma. Delta epsilon zeta.").data) 12 4).2.2.1⟩
